import Mathlib

/-!
Verification of the UDP NAT hole-punching rendezvous protocol implemented in
`nat_punch/server.py` and `nat_punch/peer.py`.

The embedding models each role as a pure function over an explicit trace of
received datagrams.  A raw UDP payload is abstracted as `Bytes`: the only
operation the Python code performs on raw bytes is `bytes.decode()`, which
either yields a text string or raises `UnicodeDecodeError`, so a payload is
either `utf8 s` (decodes to the string `s`) or `invalid` (raises).  Python
string helpers used by the code (`str.strip`, `str.split` with no argument,
`int(...)`) are reproduced as `pyStrip`, `pySplit`, `pyInt`.
-/

namespace NatPunch

/-- A raw UDP datagram payload, abstracted by the result of `bytes.decode()`:
`utf8 s` decodes to the text `s`, `invalid` raises `UnicodeDecodeError`. -/
inductive Bytes where
  | utf8 (s : String)
  | invalid
deriving DecidableEq

/-- A socket address `(host, port)` as Python handles it: the host string and
the port number (an `Int`, since `int(...)` on the peer side may produce any
integer). -/
def Addr : Type := String × Int

instance : DecidableEq Addr := by
  unfold Addr
  infer_instance

/-- Whether a character is whitespace for Python's `str.strip()` / `str.split()`
(the characters `c` with `str.isspace(c)` true). -/
def pyIsSpace (c : Char) : Bool :=
  let n := c.toNat
  (9 ≤ n && n ≤ 13) || n == 32 || (28 ≤ n && n ≤ 31) || n == 0x85 ||
    n == 0xA0 || n == 0x1680 || (0x2000 ≤ n && n ≤ 0x200A) || n == 0x2028 ||
    n == 0x2029 || n == 0x202F || n == 0x205F || n == 0x3000

/-- Python `str.strip()`: remove leading and trailing whitespace. -/
def pyStrip (s : String) : String :=
  String.mk (((s.toList.dropWhile pyIsSpace).reverse.dropWhile pyIsSpace).reverse)

/-- Helper for `pySplit`: walk the characters, accumulating the current token
in reverse; whitespace ends a token, empty tokens are dropped. -/
def wsSplitAux : List Char → List Char → List String
  | [], acc => if acc = [] then [] else [String.mk acc.reverse]
  | c :: cs, acc =>
    if pyIsSpace c then
      if acc = [] then wsSplitAux cs [] else String.mk acc.reverse :: wsSplitAux cs []
    else wsSplitAux cs (c :: acc)

/-- Python `str.split()` with no argument: split on runs of whitespace,
discarding empty fields. -/
def pySplit (s : String) : List String :=
  wsSplitAux s.toList []

/-- Whether one character list starts with another. -/
def listStarts : List Char → List Char → Bool
  | _, [] => true
  | [], _ :: _ => false
  | c :: cs, d :: ds => c == d && listStarts cs ds

/-- Python `str.startswith(p)`. -/
def pyStartsWith (s p : String) : Bool :=
  listStarts s.toList p.toList

/-- No two consecutive underscores (part of the digit-string grammar accepted
by Python `int(...)`). -/
def noDoubleUnderscore : List Char → Bool
  | [] => true
  | [_] => true
  | a :: b :: rest => !(a == '_' && b == '_') && noDoubleUnderscore (b :: rest)

/-- The zero codepoints of the Unicode decimal-digit ranges (general category
Nd): every Nd character sits in a run of ten consecutive codepoints starting
at one of these, its decimal value being the offset into the run.  Digit
table of Unicode 14.0, the database shipped with CPython 3.11 (later Unicode
versions add further scripts; the table is the one point where the model
depends on the interpreter's Unicode version). -/
def ndZeros : List Nat :=
  [0x0030, 0x0660, 0x06F0, 0x07C0, 0x0966, 0x09E6, 0x0A66, 0x0AE6, 0x0B66,
   0x0BE6, 0x0C66, 0x0CE6, 0x0D66, 0x0DE6, 0x0E50, 0x0ED0, 0x0F20, 0x1040,
   0x1090, 0x17E0, 0x1810, 0x1946, 0x19D0, 0x1A80, 0x1A90, 0x1B50, 0x1BB0,
   0x1C40, 0x1C50, 0xA620, 0xA8D0, 0xA900, 0xA9D0, 0xA9F0, 0xAA50, 0xABF0,
   0xFF10, 0x104A0, 0x10D30, 0x11066, 0x110F0, 0x11136, 0x111D0, 0x112F0,
   0x11450, 0x114D0, 0x11650, 0x116C0, 0x11730, 0x118E0, 0x11950, 0x11C50,
   0x11D50, 0x11DA0, 0x16A60, 0x16AC0, 0x16B50, 0x1D7CE, 0x1D7D8,
   0x1D7E2, 0x1D7EC, 0x1D7F6, 0x1E140, 0x1E2F0, 0x1E950, 0x1FBF0]

/-- The decimal value of a character as CPython's `int(...)` maps digits
(`Py_UNICODE_TODECIMAL`): any Unicode Nd decimal digit of any script counts,
e.g. `'٢'` (Arabic-Indic two) has value 2; `none` for every other character. -/
def pyDigitVal (c : Char) : Option Nat :=
  (ndZeros.find? (fun b => b ≤ c.toNat && c.toNat ≤ b + 9)).map (fun b => c.toNat - b)

/-- Parse an unsigned digit string as Python `int(...)` does after sign
removal: Unicode decimal digits, with single underscores allowed between
digits. -/
def pyIntDigits (l : List Char) : Option Nat :=
  match l with
  | [] => none
  | _ :: _ =>
    if l.head? == some '_' || l.getLast? == some '_' then none
    else if !noDoubleUnderscore l then none
    else if !(l.all fun c => (pyDigitVal c).isSome || c == '_') then none
    else some (l.foldl
      (fun acc c => if c == '_' then acc else acc * 10 + (pyDigitVal c).getD 0) 0)

/-- Python `int(str)`: strip surrounding whitespace, optional sign, Unicode
decimal digits (underscore separators allowed); `none` models `ValueError`. -/
def pyInt (s : String) : Option Int :=
  match (pyStrip s).toList with
  | '+' :: rest => (pyIntDigits rest).map Int.ofNat
  | '-' :: rest => (pyIntDigits rest).map (fun n => -(Int.ofNat n : Int))
  | l => (pyIntDigits l).map Int.ofNat

/-! ## Rendezvous server (`nat_punch/server.py`)

The server binds one UDP socket, then loops `while len(peers) < 2`:
receive a datagram, `peer_id = data.decode().strip()`, `peers[peer_id] = addr`.
On exit it sends each of the two registered peers the other's id and observed
address, then closes the socket.  The registry `peers` is a Python dict, i.e.
an insertion-ordered association list with key-preserving overwrite. -/

/-- Registry keys, in insertion order (`list(peers.keys())`). -/
def keysOf (peers : List (String × Addr)) : List String :=
  peers.map Prod.fst

/-- `peers[peer_id] = addr` on a Python dict: overwrite the value in place if
the key is present (keeping its position), otherwise append. -/
def regUpdate (peers : List (String × Addr)) (id : String) (ad : Addr) :
    List (String × Addr) :=
  if id ∈ keysOf peers then
    peers.map (fun p => if p.1 = id then (id, ad) else p)
  else
    peers ++ [(id, ad)]

/-- `f"{id} {host} {port}"`: the introduction datagram payload. -/
def encodeIntro (id host : String) (port : Int) : String :=
  id ++ " " ++ host ++ " " ++ toString port

/-- The two introduction sends performed after the registration loop:
`ids[0]` learns `ids[1]`'s handle and vice versa.  Each element is
(payload, destination address). -/
def mkIntros (peers : List (String × Addr)) : List (String × Addr) :=
  match peers with
  | (a, aAd) :: (b, bAd) :: _ =>
    [(encodeIntro b bAd.1 bAd.2, aAd), (encodeIntro a aAd.1 aAd.2, bAd)]
  | _ => []

/-- Outcome of a server run on a finite received-datagram trace:
`done sends peers rest` — the loop ended, the introductions `sends` were sent,
the registry is `peers`, and the suffix `rest` of the input was never received
(the socket is closed); `blocked peers` — the trace is exhausted and the server
is still blocked in `recvfrom`; `crashed peers rest` — an uncaught
`UnicodeDecodeError` terminated the process abnormally. -/
inductive ServerOutcome where
  | done (sends : List (String × Addr)) (peers : List (String × Addr))
      (rest : List (Bytes × Addr))
  | blocked (peers : List (String × Addr))
  | crashed (peers : List (String × Addr)) (rest : List (Bytes × Addr))
deriving DecidableEq

/-- The server's `while len(peers) < 2` receive loop, then the introduction
sends, as a function of the registry and the trace of incoming datagrams. -/
def serverLoop : List (String × Addr) → List (Bytes × Addr) → ServerOutcome
  | peers, [] =>
    if 2 ≤ peers.length then .done (mkIntros peers) peers [] else .blocked peers
  | peers, (d, ad) :: rest =>
    if 2 ≤ peers.length then .done (mkIntros peers) peers ((d, ad) :: rest)
    else
      match d with
      | .invalid => .crashed peers rest
      | .utf8 s => serverLoop (regUpdate peers (pyStrip s) ad) rest

/-- A full server run: `main()` of `server.py`, starting from the empty
registry. -/
def serverRun (input : List (Bytes × Addr)) : ServerOutcome :=
  serverLoop [] input

/-- The datagrams a server run sent (empty unless the run reached the
introduction step: the receive loop body contains no send). -/
def serverSends : ServerOutcome → List (String × Addr)
  | .done sends _ _ => sends
  | .blocked _ => []
  | .crashed _ _ => []

/-! ## Peer agent (`nat_punch/peer.py`) -/

/-- An observable step the peer performs: a datagram send, a `time.sleep`
between punch packets, or a line printed to stdout (`printLearned` for
`"{peer_id} learned {other_id} at {other_ip}:{other_port}"`, `printGot` for
`"{peer_id} got \x7bmsg\x7d from {addr}"`). -/
inductive Action where
  | send (payload : String) (dest : Addr)
  | sleep
  | printLearned (oid : String) (host : String) (port : Int)
  | printGot (payload : String) (src : Addr)
deriving DecidableEq

/-- The partner handle the peer learns from the introduction datagram. -/
structure Intro where
  oid : String
  ohost : String
  oport : Int
deriving DecidableEq

/-- The Python exception that terminates the peer abnormally. -/
inductive PeerErr where
  | unicodeError
  | valueError
deriving DecidableEq

/-- `other_id, other_ip, other_port = data.decode().split(); int(other_port)`:
the peer's handling of the single datagram received while awaiting the
introduction.  `data.decode()` raises on non-UTF-8 (`unicodeError`); unpacking
into three names raises `ValueError` unless the split has exactly three
fields; `int(...)` raises `ValueError` on a non-integer field.  None of these
exceptions is caught. -/
def decodeIntroRun (d : Bytes) : Except PeerErr Intro :=
  match d with
  | .invalid => .error .unicodeError
  | .utf8 s =>
    match pySplit s with
    | [i, h, p] =>
      match pyInt p with
      | some n => .ok ⟨i, h, n⟩
      | none => .error .valueError
    | _ => .error .valueError

/-- Whether a datagram text has the shape the peer's introduction unpacking
accepts: exactly three whitespace-separated fields with an integer third. -/
def introShapeOk (s : String) : Bool :=
  match pySplit s with
  | [_, _, p] => (pyInt p).isSome
  | _ => false

/-- `f"ping from {peer_id}"` / `f"ack from {peer_id}"`. -/
def encodePing (pid : String) : String := "ping from " ++ pid

/-- The ack payload the peer sends back on a ping. -/
def encodeAck (pid : String) : String := "ack from " ++ pid

/-- One iteration of the punch loop body: `sock.sendto(ping, other)` then
`time.sleep(0.5)`. -/
def punchIter (pid : String) (dest : Addr) : List Action :=
  [.send (encodePing pid) dest, .sleep]

/-- `for _ in range(n): sendto(ping); sleep` — the fixed punch burst. -/
def punchBurst (pid : String) (dest : Addr) (n : Nat) : List Action :=
  (List.replicate n (punchIter pid dest)).flatten

/-- The burst length hard-coded in `range(3)`. -/
def burstCount : Nat := 3

/-- An event observed by the listening loop's `recvfrom` under
`sock.settimeout(5)`: either a datagram arrives from `src`, or a full timeout
window elapses with no datagram (`socket.timeout` raised). -/
inductive LEvent where
  | msg (d : Bytes) (src : Addr)
  | tmo
deriving DecidableEq

/-- Outcome of the listening loop on a finite event trace, carrying the
actions performed: `done` — `socket.timeout` was caught, the loop exited
normally; `crashed` — an uncaught `UnicodeDecodeError`; `blocked` — the
modelled trace ended while the loop was still waiting in `recvfrom`. -/
inductive ListenOutcome where
  | done (acts : List Action)
  | crashed (acts : List Action)
  | blocked (acts : List Action)
deriving DecidableEq

/-- Prefix an outcome's action trace with actions already performed. -/
def withActs (pre : List Action) : ListenOutcome → ListenOutcome
  | .done a => .done (pre ++ a)
  | .crashed a => .crashed (pre ++ a)
  | .blocked a => .blocked (pre ++ a)

/-- The loop body's actions on a decoded datagram text `s` from `src`:
print the received line, and iff `msg.startswith('ping')` send an ack back to
the observed source address. -/
def listenStepActs (pid : String) (s : String) (src : Addr) : List Action :=
  .printGot s src :: (if pyStartsWith s "ping" then [.send (encodeAck pid) src] else [])

/-- The peer's listening loop (`while True: recvfrom ...` under a 5-second
timeout, with `except socket.timeout: pass` around the whole loop). -/
def listenLoop (pid : String) : List LEvent → ListenOutcome
  | [] => .blocked []
  | .tmo :: _ => .done []
  | .msg .invalid _ :: _ => .crashed []
  | .msg (.utf8 s) src :: rest =>
    withActs (listenStepActs pid s src) (listenLoop pid rest)

/-- Outcome of a whole peer run, with the actions performed. -/
inductive PeerOutcome where
  | done (acts : List Action)
  | crashed (acts : List Action) (e : PeerErr)
  | blocked (acts : List Action)
deriving DecidableEq

/-- The actions a peer run performed. -/
def peerActs : PeerOutcome → List Action
  | .done a => a
  | .crashed a _ => a
  | .blocked a => a

/-- `main()` of `peer.py`: register with the server, receive one datagram as
the introduction (its source address is ignored), decode it, print the
learned partner, send the punch burst to the partner's address, then run the
listening loop on the subsequent events. -/
def peerMain (pid : String) (srv : Addr) (introDatagram : Bytes)
    (events : List LEvent) : PeerOutcome :=
  match decodeIntroRun introDatagram with
  | .error e => .crashed [.send pid srv] e
  | .ok it =>
    let pre : List Action :=
      .send pid srv :: .printLearned it.oid it.ohost it.oport ::
        punchBurst pid (it.ohost, it.oport) burstCount
    match listenLoop pid events with
    | .done l => .done (pre ++ l)
    | .crashed l => .crashed (pre ++ l) .unicodeError
    | .blocked l => .blocked (pre ++ l)

/-! ## Derived definitions used in the verification -/

/-- The registry carried by a server outcome. -/
def outPeers : ServerOutcome → List (String × Addr)
  | .done _ p _ => p
  | .blocked p => p
  | .crashed p _ => p

/-- One registration step of the server loop on a received datagram
(identity on a non-UTF-8 datagram, which in fact crashes the loop; the
identity case is only used to state facts about completed runs, which
consumed no such datagram). -/
def regStep (peers : List (String × Addr)) (x : Bytes × Addr) :
    List (String × Addr) :=
  match x.1 with
  | .utf8 s => regUpdate peers (pyStrip s) x.2
  | .invalid => peers

/-- The effect of one registration on the ordered key list of a Python dict:
keep it if the key is present, append otherwise. -/
def keyIns (ks : List String) (id : String) : List String :=
  if id ∈ ks then ks else ks ++ [id]

/-- `peers[id]`: the address stored under a key. -/
def lookupId (peers : List (String × Addr)) (id : String) : Option Addr :=
  (peers.find? (fun p => p.1 = id)).map Prod.snd

/-! ## Spec-side definitions used for comparison -/

/-- Decoding of a punch datagram as the spec's codec describes it:
the shape `"<kind> from <senderId>"`, kind the leading whitespace-delimited
token; `none` models `MalformedMessage`. -/
def specDecodePunch (s : String) : Option (String × String) :=
  match pySplit s with
  | [k, w, sid] => if w = "from" then some (k, sid) else none
  | _ => none

/-- The first two distinct elements of a list, in arrival order: the first
element paired with the first later element different from it. -/
def specFirstTwoDistinct (l : List String) : Option (String × String) :=
  match l with
  | [] => none
  | x :: xs => (xs.find? (fun y => y ≠ x)).map (fun y => (x, y))

/-- The registration ids carried by a datagram trace, as the server decodes
them (non-UTF-8 datagrams carry none). -/
def regIds (l : List (Bytes × Addr)) : List String :=
  l.filterMap (fun x =>
    match x.1 with
    | Bytes.utf8 s => some (pyStrip s)
    | Bytes.invalid => none)

/-! ## Lemmas about the registry update -/

theorem keysOf_regUpdate (peers : List (String × Addr)) (id : String) (ad : Addr) :
    keysOf (regUpdate peers id ad) = keyIns (keysOf peers) id := by
  unfold regUpdate keyIns
  by_cases hmem : id ∈ keysOf peers
  · rw [if_pos hmem, if_pos hmem]
    unfold keysOf
    rw [List.map_map]
    refine List.map_congr_left ?_
    intro p _
    by_cases hp : p.1 = id
    · simp [Function.comp, hp]
    · simp [Function.comp, hp]
  · rw [if_neg hmem, if_neg hmem]
    unfold keysOf
    simp

theorem length_regUpdate (peers : List (String × Addr)) (id : String) (ad : Addr) :
    (regUpdate peers id ad).length =
      if id ∈ keysOf peers then peers.length else peers.length + 1 := by
  unfold regUpdate
  by_cases hmem : id ∈ keysOf peers
  · simp [hmem]
  · simp [hmem]

theorem length_regUpdate_le (peers : List (String × Addr)) (id : String) (ad : Addr) :
    (regUpdate peers id ad).length ≤ peers.length + 1 := by
  rw [length_regUpdate]
  split
  · omega
  · omega

theorem keyIns_nodup (ks : List String) (id : String) (h : ks.Nodup) :
    (keyIns ks id).Nodup := by
  unfold keyIns
  by_cases hmem : id ∈ ks
  · rwa [if_pos hmem]
  · rw [if_neg hmem]
    simp [List.nodup_append, h, hmem]

theorem mem_regUpdate (peers : List (String × Addr)) (id : String) (ad : Addr)
    (p : String × Addr) (h : p ∈ regUpdate peers id ad) :
    p = (id, ad) ∨ p ∈ peers := by
  unfold regUpdate at h
  by_cases hmem : id ∈ keysOf peers
  · rw [if_pos hmem] at h
    obtain ⟨q, hq, hfq⟩ := List.mem_map.mp h
    by_cases hq1 : q.1 = id
    · rw [if_pos hq1] at hfq
      exact Or.inl hfq.symm
    · rw [if_neg hq1] at hfq
      exact Or.inr (hfq ▸ hq)
  · rw [if_neg hmem] at h
    rcases List.mem_append.mp h with h1 | h1
    · exact Or.inr h1
    · exact Or.inl (List.mem_singleton.mp h1)

theorem lookupId_regUpdate (peers : List (String × Addr)) (id : String) (ad : Addr) :
    lookupId (regUpdate peers id ad) id = some ad := by
  unfold regUpdate lookupId
  by_cases hmem : id ∈ keysOf peers
  · rw [if_pos hmem]
    rw [List.find?_map]
    have hpred : ∀ q : String × Addr,
        ((fun p : String × Addr => decide (p.1 = id)) ∘
          (fun p : String × Addr => if p.1 = id then (id, ad) else p)) q =
        (fun p : String × Addr => decide (p.1 = id)) q := by
      intro q
      by_cases hq : q.1 = id
      · simp [Function.comp, hq]
      · simp [Function.comp, hq]
    rw [funext hpred]
    obtain ⟨q, hq, hq1⟩ := List.mem_map.mp hmem
    have hsome : (peers.find? (fun p : String × Addr => decide (p.1 = id))).isSome := by
      rw [List.find?_isSome]
      exact ⟨q, hq, by simp [hq1]⟩
    obtain ⟨r, hr⟩ := Option.isSome_iff_exists.mp hsome
    have hr1 : r.1 = id := by
      have := List.find?_some hr
      simpa using this
    rw [hr, Option.map_some', Option.map_some', if_pos hr1]
  · rw [if_neg hmem]
    rw [List.find?_append]
    have hnone : peers.find? (fun p : String × Addr => decide (p.1 = id)) = none := by
      rw [List.find?_eq_none]
      intro p hp
      simp only [decide_eq_true_eq]
      intro hp1
      exact hmem (List.mem_map.mpr ⟨p, hp, hp1⟩)
    rw [hnone]
    simp

/-! ## Lemmas about the server loop -/

theorem serverLoop_nil (peers : List (String × Addr)) :
    serverLoop peers [] =
      if 2 ≤ peers.length then .done (mkIntros peers) peers [] else .blocked peers := rfl

theorem serverLoop_cons_utf8 (peers : List (String × Addr)) (s : String) (ad : Addr)
    (rest : List (Bytes × Addr)) (h : ¬ 2 ≤ peers.length) :
    serverLoop peers ((Bytes.utf8 s, ad) :: rest) =
      serverLoop (regUpdate peers (pyStrip s) ad) rest := by
  show (if 2 ≤ peers.length then
      ServerOutcome.done (mkIntros peers) peers ((Bytes.utf8 s, ad) :: rest)
    else serverLoop (regUpdate peers (pyStrip s) ad) rest) = _
  rw [if_neg h]

theorem serverLoop_outPeers_le (input : List (Bytes × Addr)) :
    ∀ peers : List (String × Addr), peers.length ≤ 2 →
      (outPeers (serverLoop peers input)).length ≤ 2 := by
  induction input with
  | nil =>
    intro peers hle
    unfold serverLoop
    split <;> simpa [outPeers]
  | cons x rest ih =>
    intro peers hle
    obtain ⟨d, ad⟩ := x
    unfold serverLoop
    by_cases h2 : 2 ≤ peers.length
    · rw [if_pos h2]
      simpa [outPeers]
    · rw [if_neg h2]
      cases d with
      | invalid => simpa [outPeers]
      | utf8 s =>
        refine ih _ ?_
        have := length_regUpdate_le peers (pyStrip s) ad
        omega

theorem serverLoop_done_ge (input : List (Bytes × Addr)) :
    ∀ peers sends ps rest, serverLoop peers input = .done sends ps rest →
      2 ≤ ps.length := by
  induction input with
  | nil =>
    intro peers sends ps rest h
    unfold serverLoop at h
    split at h
    · cases h
      assumption
    · cases h
  | cons x rest' ih =>
    intro peers sends ps rest h
    obtain ⟨d, ad⟩ := x
    unfold serverLoop at h
    split at h
    · cases h
      assumption
    · cases d with
      | invalid => cases h
      | utf8 s => exact ih _ _ _ _ h

theorem serverLoop_blocked_lt (input : List (Bytes × Addr)) :
    ∀ peers ps, serverLoop peers input = .blocked ps → ps.length < 2 := by
  induction input with
  | nil =>
    intro peers ps h
    unfold serverLoop at h
    split at h
    · cases h
    · cases h
      omega
  | cons x rest' ih =>
    intro peers ps h
    obtain ⟨d, ad⟩ := x
    unfold serverLoop at h
    split at h
    · cases h
    · cases d with
      | invalid => cases h
      | utf8 s => exact ih _ _ h

theorem serverLoop_done_nodup (input : List (Bytes × Addr)) :
    ∀ peers sends ps rest, serverLoop peers input = .done sends ps rest →
      (keysOf peers).Nodup → (keysOf ps).Nodup := by
  induction input with
  | nil =>
    intro peers sends ps rest h hnd
    unfold serverLoop at h
    split at h
    · cases h
      exact hnd
    · cases h
  | cons x rest' ih =>
    intro peers sends ps rest h hnd
    obtain ⟨d, ad⟩ := x
    unfold serverLoop at h
    split at h
    · cases h
      exact hnd
    · cases d with
      | invalid => cases h
      | utf8 s =>
        refine ih _ _ _ _ h ?_
        rw [keysOf_regUpdate]
        exact keyIns_nodup _ _ hnd

theorem serverLoop_done_split (input : List (Bytes × Addr)) :
    ∀ peers sends ps rest, serverLoop peers input = .done sends ps rest →
      ∃ consumed, input = consumed ++ rest ∧
        ps = consumed.foldl regStep peers ∧ sends = mkIntros ps := by
  induction input with
  | nil =>
    intro peers sends ps rest h
    unfold serverLoop at h
    split at h
    · cases h
      exact ⟨[], rfl, rfl, rfl⟩
    · cases h
  | cons x rest' ih =>
    intro peers sends ps rest h
    obtain ⟨d, ad⟩ := x
    unfold serverLoop at h
    split at h
    · cases h
      exact ⟨[], rfl, rfl, rfl⟩
    · cases d with
      | invalid => cases h
      | utf8 s =>
        obtain ⟨c, hc, hps, hs⟩ := ih _ _ _ _ h
        refine ⟨(Bytes.utf8 s, ad) :: c, by rw [List.cons_append, hc], ?_, hs⟩
        rw [List.foldl_cons]
        exact hps

theorem serverLoop_append (input : List (Bytes × Addr)) :
    ∀ peers sends ps r, serverLoop peers input = .done sends ps r →
      ∀ extra, serverLoop peers (input ++ extra) = .done sends ps (r ++ extra) := by
  induction input with
  | nil =>
    intro peers sends ps r h extra
    unfold serverLoop at h
    split at h
    case isTrue h2 =>
      cases h
      simp only [List.nil_append]
      cases extra with
      | nil =>
        unfold serverLoop
        rw [if_pos h2]
      | cons y ys =>
        obtain ⟨d, ad⟩ := y
        unfold serverLoop
        rw [if_pos h2]
    case isFalse => cases h
  | cons x rest' ih =>
    intro peers sends ps r h extra
    obtain ⟨d, ad⟩ := x
    unfold serverLoop at h
    split at h
    case isTrue h2 =>
      cases h
      rw [List.cons_append]
      unfold serverLoop
      rw [if_pos h2]
    case isFalse h2 =>
      cases d with
      | invalid => cases h
      | utf8 s =>
        rw [List.cons_append]
        unfold serverLoop
        rw [if_neg h2]
        exact ih _ _ _ _ h extra

/-! ## Lemmas about registration folds and key order -/

theorem foldl_regStep_mem (consumed : List (Bytes × Addr)) :
    ∀ peers (p : String × Addr), p ∈ consumed.foldl regStep peers →
      p ∈ peers ∨ ∃ s, (Bytes.utf8 s, p.2) ∈ consumed ∧ pyStrip s = p.1 := by
  induction consumed with
  | nil =>
    intro peers p h
    exact Or.inl h
  | cons x c' ih =>
    intro peers p h
    rw [List.foldl_cons] at h
    rcases ih _ _ h with h1 | ⟨s, hs, hstrip⟩
    · obtain ⟨d, ad⟩ := x
      cases d with
      | invalid => exact Or.inl h1
      | utf8 s =>
        rcases mem_regUpdate _ _ _ _ h1 with heq | hmem
        · refine Or.inr ⟨s, ?_, ?_⟩
          · rw [heq]
            exact List.mem_cons_self _ _
          · rw [heq]
        · exact Or.inl hmem
    · exact Or.inr ⟨s, List.mem_cons_of_mem _ hs, hstrip⟩

theorem keysOf_foldl_regStep (consumed : List (Bytes × Addr)) :
    ∀ peers, keysOf (consumed.foldl regStep peers) =
      (regIds consumed).foldl keyIns (keysOf peers) := by
  induction consumed with
  | nil =>
    intro peers
    simp [regIds]
  | cons x c' ih =>
    intro peers
    obtain ⟨d, ad⟩ := x
    cases d with
    | invalid =>
      rw [List.foldl_cons]
      rw [ih]
      simp [regIds, regStep]
    | utf8 s =>
      rw [List.foldl_cons]
      rw [ih]
      have : regIds ((Bytes.utf8 s, ad) :: c') = pyStrip s :: regIds c' := by
        simp [regIds]
      rw [this, List.foldl_cons]
      have : regStep peers (Bytes.utf8 s, ad) = regUpdate peers (pyStrip s) ad := rfl
      rw [this, keysOf_regUpdate]

theorem foldl_keyIns_extends (l : List String) :
    ∀ ks, ∃ ext, l.foldl keyIns ks = ks ++ ext := by
  induction l with
  | nil =>
    intro ks
    exact ⟨[], by simp⟩
  | cons x l' ih =>
    intro ks
    rw [List.foldl_cons]
    by_cases hmem : x ∈ ks
    · have hk : keyIns ks x = ks := by
        unfold keyIns
        rw [if_pos hmem]
      rw [hk]
      exact ih ks
    · have hk : keyIns ks x = ks ++ [x] := by
        unfold keyIns
        rw [if_neg hmem]
      rw [hk]
      obtain ⟨ext, hext⟩ := ih (ks ++ [x])
      exact ⟨x :: ext, by rw [hext]; simp⟩

theorem foldl_keyIns_two (l : List String) :
    ∀ a b, l.foldl keyIns [a] = [a, b] →
      l.find? (fun y => y ≠ a) = some b := by
  induction l with
  | nil =>
    intro a b h
    simp at h
  | cons x l' ih =>
    intro a b h
    rw [List.foldl_cons] at h
    by_cases hxa : x = a
    · have hkeep : keyIns [a] x = [a] := by
        unfold keyIns
        rw [if_pos (by rw [hxa]; exact List.mem_singleton_self a)]
      rw [hkeep] at h
      rw [List.find?_cons_of_neg _ (by simp [hxa])]
      exact ih a b h
    · have hins : keyIns [a] x = [a, x] := by
        unfold keyIns
        rw [if_neg (by simp [hxa])]
        rfl
      rw [hins] at h
      obtain ⟨ext, hext⟩ := foldl_keyIns_extends l' [a, x]
      rw [hext] at h
      have hxb : x = b := by
        have := congrArg (fun l => l.get? 1) h
        simpa using this
      rw [List.find?_cons_of_pos _ (by simp [hxa])]
      rw [hxb]

theorem specFirstTwoDistinct_of_keyFold (l : List String) (a b : String)
    (h : l.foldl keyIns [] = [a, b]) :
    specFirstTwoDistinct l = some (a, b) := by
  cases l with
  | nil => simp at h
  | cons x xs =>
    rw [List.foldl_cons] at h
    have hx : keyIns [] x = [x] := by
      unfold keyIns
      rw [if_neg (List.not_mem_nil x)]
      simp
    rw [hx] at h
    have hxa : x = a := by
      obtain ⟨ext, hext⟩ := foldl_keyIns_extends xs [x]
      rw [hext] at h
      have := congrArg (fun l => l.get? 0) h
      simpa using this
    rw [hxa] at h ⊢
    have hred : specFirstTwoDistinct (a :: xs) =
        (xs.find? (fun y => y ≠ a)).map (fun y => (a, y)) := rfl
    rw [hred, foldl_keyIns_two xs a b h]
    rfl

/-- The shape of a completed server run: the registry holds exactly two
distinct ids and the sends are the two cross-introductions. -/
theorem serverRun_done_shape (input : List (Bytes × Addr))
    (sends ps : List (String × Addr)) (rest : List (Bytes × Addr))
    (h : serverRun input = .done sends ps rest) :
    ∃ a aAd b bAd, ps = [(a, aAd), (b, bAd)] ∧ a ≠ b ∧
      sends = [(encodeIntro b bAd.1 bAd.2, aAd), (encodeIntro a aAd.1 aAd.2, bAd)] := by
  have hge : 2 ≤ ps.length := serverLoop_done_ge _ _ _ _ _ h
  have hle : ps.length ≤ 2 := by
    have := serverLoop_outPeers_le input [] (by simp)
    rw [show serverLoop [] input = serverRun input from rfl, h] at this
    simpa [outPeers] using this
  have hlen : ps.length = 2 := le_antisymm hle hge
  obtain ⟨p1, p2, hps⟩ := List.length_eq_two.mp hlen
  obtain ⟨a, aAd⟩ := p1
  obtain ⟨b, bAd⟩ := p2
  have hnd : (keysOf ps).Nodup :=
    serverLoop_done_nodup _ _ _ _ _ h (by simp [keysOf])
  have hab : a ≠ b := by
    rw [hps] at hnd
    simp [keysOf] at hnd
    exact hnd
  have hsends : sends = mkIntros ps := by
    obtain ⟨c, _, _, hs⟩ := serverLoop_done_split _ _ _ _ _ h
    exact hs
  refine ⟨a, aAd, b, bAd, hps, hab, ?_⟩
  rw [hsends, hps]
  rfl

theorem serverLoop_same_id_blocked (id : String) (ads : List Addr) :
    ∀ peers : List (String × Addr), peers.length ≤ 1 →
      (∀ p ∈ peers, p.1 = pyStrip id) →
      ∃ ps, serverLoop peers (ads.map fun ad => (Bytes.utf8 id, ad)) = .blocked ps ∧
        ps.length ≤ 1 := by
  induction ads with
  | nil =>
    intro peers hlen _
    refine ⟨peers, ?_, hlen⟩
    rw [List.map_nil, serverLoop_nil, if_neg (by omega)]
  | cons ad ads' ih =>
    intro peers hlen hkeys
    rw [List.map_cons, serverLoop_cons_utf8 _ _ _ _ (by omega)]
    by_cases hmem : pyStrip id ∈ keysOf peers
    · refine ih _ ?_ ?_
      · rw [length_regUpdate, if_pos hmem]
        exact hlen
      · intro p hp
        rcases mem_regUpdate _ _ _ _ hp with heq | hor
        · rw [heq]
        · exact hkeys p hor
    · have hnil : peers = [] := by
        cases peers with
        | nil => rfl
        | cons q qs =>
          exfalso
          apply hmem
          have hq : q.1 = pyStrip id := hkeys q (List.mem_cons_self _ _)
          exact List.mem_map.mpr ⟨q, List.mem_cons_self _ _, hq⟩
      rw [hnil]
      refine ih _ ?_ ?_
      · simp [regUpdate, keysOf]
      · intro p hp
        simp [regUpdate, keysOf] at hp
        rw [hp]

theorem pyStrip_allspace (s : String) (h : ∀ c ∈ s.toList, pyIsSpace c = true) :
    pyStrip s = "" := by
  unfold pyStrip
  have h1 : s.toList.dropWhile pyIsSpace = [] := List.dropWhile_eq_nil_iff.mpr h
  rw [h1]
  rfl

/-! ## Claim theorems: rendezvous server -/

/-- C1: for every completed run of the rendezvous server, the registry holds
exactly two distinct ids, taken in arrival order (the first two distinct
stripped ids of the consumed datagrams), and the server sends exactly one
introduction to each of the two peers, each carrying the other peer's id
together with the observed source address from which that other peer's
registration datagram arrived. -/
theorem server_introduces_first_two_distinct :
    ∀ input sends ps rest, serverRun input = .done sends ps rest →
      ∃ a aAd b bAd consumed,
        ps = [(a, aAd), (b, bAd)] ∧ a ≠ b ∧
        sends = [(encodeIntro b bAd.1 bAd.2, aAd), (encodeIntro a aAd.1 aAd.2, bAd)] ∧
        input = consumed ++ rest ∧
        (∃ s, (Bytes.utf8 s, aAd) ∈ consumed ∧ pyStrip s = a) ∧
        (∃ s, (Bytes.utf8 s, bAd) ∈ consumed ∧ pyStrip s = b) ∧
        specFirstTwoDistinct (regIds consumed) = some (a, b) := by
  intro input sends ps rest h
  obtain ⟨a, aAd, b, bAd, hps, hab, hsends⟩ := serverRun_done_shape input sends ps rest h
  obtain ⟨consumed, hc, hfold, _⟩ := serverLoop_done_split input [] sends ps rest h
  refine ⟨a, aAd, b, bAd, consumed, hps, hab, hsends, hc, ?_, ?_, ?_⟩
  · have hmem : (a, aAd) ∈ ps := by
      rw [hps]
      exact List.mem_cons_self _ _
    rw [hfold] at hmem
    rcases foldl_regStep_mem consumed [] (a, aAd) hmem with hnil | hex
    · cases hnil
    · exact hex
  · have hmem : (b, bAd) ∈ ps := by
      rw [hps]
      exact List.mem_cons_of_mem _ (List.mem_cons_self _ _)
    rw [hfold] at hmem
    rcases foldl_regStep_mem consumed [] (b, bAd) hmem with hnil | hex
    · cases hnil
    · exact hex
  · refine specFirstTwoDistinct_of_keyFold _ _ _ ?_
    have hkeys : keysOf ps = [a, b] := by
      rw [hps]
      rfl
    rw [hfold, keysOf_foldl_regStep] at hkeys
    exact hkeys

/-- C1 witness: the shape theorem applied to the concrete run in which
`peer1` then `peer2` register from distinct addresses. -/
theorem server_introduces_first_two_distinct_witness :
    ∃ a aAd b bAd consumed,
      ([("peer1", (("h1", 1) : Addr)), ("peer2", (("h2", 2) : Addr))] :
          List (String × Addr)) = [(a, aAd), (b, bAd)] ∧ a ≠ b ∧
      ([("peer2 h2 2", (("h1", 1) : Addr)), ("peer1 h1 1", (("h2", 2) : Addr))] :
          List (String × Addr)) =
        [(encodeIntro b bAd.1 bAd.2, aAd), (encodeIntro a aAd.1 aAd.2, bAd)] ∧
      ([(Bytes.utf8 "peer1", (("h1", 1) : Addr)), (Bytes.utf8 "peer2", (("h2", 2) : Addr))] :
          List (Bytes × Addr)) = consumed ++ [] ∧
      (∃ s, (Bytes.utf8 s, aAd) ∈ consumed ∧ pyStrip s = a) ∧
      (∃ s, (Bytes.utf8 s, bAd) ∈ consumed ∧ pyStrip s = b) ∧
      specFirstTwoDistinct (regIds consumed) = some (a, b) :=
  server_introduces_first_two_distinct
    [(Bytes.utf8 "peer1", ("h1", 1)), (Bytes.utf8 "peer2", ("h2", 2))]
    [("peer2 h2 2", ("h1", 1)), ("peer1 h1 1", ("h2", 2))]
    [("peer1", ("h1", 1)), ("peer2", ("h2", 2))] [] (by decide)

/-- C4: the server registry never exceeds two entries and a completed run
holds exactly two distinct ids; while the trace is exhausted without a second
distinct id the loop is still blocked with at most one entry; re-registering
an existing id keeps the registry size unchanged and overwrites the stored
address; and a trace that only ever registers one id (from any addresses)
leaves the server blocked in its loop. -/
theorem server_registry_invariants :
    (∀ input sends ps rest, serverRun input = .done sends ps rest →
      ps.length = 2 ∧ (keysOf ps).Nodup) ∧
    (∀ input ps, serverRun input = .blocked ps → ps.length ≤ 1) ∧
    (∀ peers id ad, id ∈ keysOf peers →
      (regUpdate peers id ad).length = peers.length ∧
      lookupId (regUpdate peers id ad) id = some ad) ∧
    (∀ (id : String) (ads : List Addr), ∃ ps,
      serverRun (ads.map fun ad => (Bytes.utf8 id, ad)) = .blocked ps ∧
      ps.length ≤ 1) := by
  refine ⟨?_, ?_, ?_, ?_⟩
  · intro input sends ps rest h
    obtain ⟨a, aAd, b, bAd, hps, hab, _⟩ := serverRun_done_shape input sends ps rest h
    constructor
    · rw [hps]
      rfl
    · rw [hps]
      simp [keysOf, hab]
  · intro input ps h
    have := serverLoop_blocked_lt input [] ps h
    omega
  · intro peers id ad hmem
    exact ⟨by rw [length_regUpdate, if_pos hmem], lookupId_regUpdate peers id ad⟩
  · intro id ads
    exact serverLoop_same_id_blocked id ads [] (by simp) (by intro p hp; cases hp)

/-- C4 witness: the invariants applied to a concrete completed run, to a
concrete overwrite, and to a concrete single-id trace. -/
theorem server_registry_invariants_witness :
    (([("a", (("h1", 1) : Addr)), ("b", (("h2", 2) : Addr))] :
        List (String × Addr)).length = 2 ∧
      (keysOf [("a", (("h1", 1) : Addr)), ("b", (("h2", 2) : Addr))]).Nodup) ∧
    ((regUpdate [("a", (("h1", 1) : Addr))] "a" ("h9", 9)).length =
        ([("a", (("h1", 1) : Addr))] : List (String × Addr)).length ∧
      lookupId (regUpdate [("a", (("h1", 1) : Addr))] "a" ("h9", 9)) "a" =
        some ("h9", 9)) ∧
    (∃ ps, serverRun ([(("h1", 1) : Addr), ("h2", 2)].map
        fun ad => (Bytes.utf8 "solo", ad)) = .blocked ps ∧ ps.length ≤ 1) :=
  ⟨server_registry_invariants.1
      [(Bytes.utf8 "a", ("h1", 1)), (Bytes.utf8 "b", ("h2", 2))]
      [("b h2 2", ("h1", 1)), ("a h1 1", ("h2", 2))]
      [("a", ("h1", 1)), ("b", ("h2", 2))] [] (by decide),
    server_registry_invariants.2.2.1 [("a", ("h1", 1))] "a" ("h9", 9) (by decide),
    server_registry_invariants.2.2.2 "solo" [("h1", 1), ("h2", 2)]⟩

/-- C5: a server run that completed on an input trace is unchanged by any
datagrams arriving afterwards: the same introductions are sent, the registry
is the same, and the extra datagrams are left unreceived (the socket is
closed, so a third registration is never introduced). -/
theorem server_single_pairing :
    ∀ input extra sends ps, serverRun input = .done sends ps [] →
      serverRun (input ++ extra) = .done sends ps extra := by
  intro input extra sends ps h
  have := serverLoop_append input [] sends ps [] h extra
  simpa using this

/-- C5 witness: after `peer1` and `peer2` complete the pairing, a third
registration of `peer3` is left unreceived and the sends are unchanged. -/
theorem server_single_pairing_witness :
    serverRun ([(Bytes.utf8 "peer1", ("h1", 1)), (Bytes.utf8 "peer2", ("h2", 2))] ++
        [(Bytes.utf8 "peer3", ("h3", 3))]) =
      .done [("peer2 h2 2", ("h1", 1)), ("peer1 h1 1", ("h2", 2))]
        [("peer1", ("h1", 1)), ("peer2", ("h2", 2))]
        [(Bytes.utf8 "peer3", ("h3", 3))] :=
  server_single_pairing
    [(Bytes.utf8 "peer1", ("h1", 1)), (Bytes.utf8 "peer2", ("h2", 2))]
    [(Bytes.utf8 "peer3", ("h3", 3))]
    [("peer2 h2 2", ("h1", 1)), ("peer1 h1 1", ("h2", 2))]
    [("peer1", ("h1", 1)), ("peer2", ("h2", 2))] (by decide)

/-- C9: the server validates registration ids not at all: any whitespace-only
datagram registers the empty-string id, which counts as one of the two
distinct ids and is itself introduced to the partner (whose introduction
payload then starts with a space). -/
theorem server_registers_empty_id :
    ∀ s x a1 a2, (∀ c ∈ s.toList, pyIsSpace c = true) → pyStrip x ≠ "" →
      serverRun [(Bytes.utf8 s, a1), (Bytes.utf8 x, a2)] =
        .done [(encodeIntro (pyStrip x) a2.1 a2.2, a1), (encodeIntro "" a1.1 a1.2, a2)]
          [("", a1), (pyStrip x, a2)] [] := by
  intro s x a1 a2 hsp hx
  have h0 : pyStrip s = "" := pyStrip_allspace s hsp
  have step1 : serverRun [(Bytes.utf8 s, a1), (Bytes.utf8 x, a2)] =
      serverLoop (regUpdate [] (pyStrip s) a1) [(Bytes.utf8 x, a2)] :=
    serverLoop_cons_utf8 [] s a1 [(Bytes.utf8 x, a2)] (by simp)
  have e1 : regUpdate [] (pyStrip s) a1 = [("", a1)] := by
    rw [h0]
    simp [regUpdate, keysOf]
  have step2 : serverLoop [("", a1)] [(Bytes.utf8 x, a2)] =
      serverLoop (regUpdate [("", a1)] (pyStrip x) a2) [] :=
    serverLoop_cons_utf8 [("", a1)] x a2 [] (by simp)
  have e2 : regUpdate [("", a1)] (pyStrip x) a2 = [("", a1), (pyStrip x, a2)] := by
    unfold regUpdate
    rw [if_neg (by simp [keysOf, hx])]
    rfl
  have step3 : serverLoop [("", a1), (pyStrip x, a2)] [] =
      .done (mkIntros [("", a1), (pyStrip x, a2)]) [("", a1), (pyStrip x, a2)] [] := by
    rw [serverLoop_nil, if_pos (by simp)]
  rw [step1, e1, step2, e2, step3]
  rfl

/-- C9 witness: a single space registers the id `""` and is introduced as the
partner of `alice`. -/
theorem server_registers_empty_id_witness :
    serverRun [(Bytes.utf8 " ", ("h1", 1)), (Bytes.utf8 "alice", ("h2", 2))] =
      .done [(encodeIntro (pyStrip "alice")
          (("h2", 2) : Addr).1 (("h2", 2) : Addr).2, ("h1", 1)),
          (encodeIntro "" (("h1", 1) : Addr).1 (("h1", 1) : Addr).2, ("h2", 2))]
        [("", ("h1", 1)), (pyStrip "alice", ("h2", 2))] [] :=
  server_registers_empty_id " " "alice" ("h1", 1) ("h2", 2) (by decide) (by decide)

/-- C10: the receive loop itself sends nothing: a server run either sent no
datagram at all (still blocked, or crashed before pairing), or it completed
and the only datagrams it ever sent are the two introductions emitted after
the second distinct registration. -/
theorem server_no_sends_before_pairing :
    ∀ input,
      serverSends (serverRun input) = [] ∨
      ∃ a aAd b bAd rest,
        serverRun input =
          .done [(encodeIntro b bAd.1 bAd.2, aAd), (encodeIntro a aAd.1 aAd.2, bAd)]
            [(a, aAd), (b, bAd)] rest ∧
        a ≠ b ∧
        serverSends (serverRun input) =
          [(encodeIntro b bAd.1 bAd.2, aAd), (encodeIntro a aAd.1 aAd.2, bAd)] := by
  intro input
  cases h : serverRun input with
  | blocked ps =>
    left
    rfl
  | crashed ps rest =>
    left
    rfl
  | done sends ps rest =>
    right
    obtain ⟨a, aAd, b, bAd, hps, hab, hsends⟩ := serverRun_done_shape input sends ps rest h
    refine ⟨a, aAd, b, bAd, rest, ?_, hab, ?_⟩
    · rw [hps, hsends]
    · rw [hsends]
      rfl

/-! ## Lemmas about the peer -/

theorem decodeIntroRun_ok (s i h p : String) (n : Int)
    (hsp : pySplit s = [i, h, p]) (hpi : pyInt p = some n) :
    decodeIntroRun (.utf8 s) = .ok ⟨i, h, n⟩ := by
  unfold decodeIntroRun
  simp only [hsp, hpi]

theorem decodeIntroRun_err (s : String) (h : introShapeOk s = false) :
    decodeIntroRun (.utf8 s) = .error .valueError := by
  unfold decodeIntroRun
  unfold introShapeOk at h
  cases hsp : pySplit s with
  | nil => simp only [hsp]
  | cons a as =>
    cases as with
    | nil => simp only [hsp]
    | cons b bs =>
      cases bs with
      | nil => simp only [hsp]
      | cons c cs =>
        cases cs with
        | nil =>
          rw [hsp] at h
          have h' : (pyInt c).isSome = false := h
          cases hpi : pyInt c with
          | none => simp only [hsp, hpi]
          | some v =>
            rw [hpi] at h'
            simp at h'
        | cons d ds => simp only [hsp]

theorem listenLoop_cons_utf8 (pid s : String) (src : Addr) (rest : List LEvent) :
    listenLoop pid (.msg (.utf8 s) src :: rest) =
      withActs (listenStepActs pid s src) (listenLoop pid rest) := rfl

/-! ## Claim theorems: peer agent and malformed datagrams -/

/-- C2 counterexample: a non-UTF-8 datagram is not discarded: it crashes the
server's registration loop (uncaught `UnicodeDecodeError` from
`data.decode()`), and likewise crashes the peer that receives it as its
introduction, contradicting the claim that malformed datagrams never crash
the receiving role. -/
theorem malformed_never_crash_counterexample :
    serverRun [(Bytes.invalid, ("10.0.0.1", 1234))] = .crashed [] [] ∧
    peerMain "p1" ("srv", 9999) Bytes.invalid [] =
      .crashed [Action.send "p1" ("srv", 9999)] .unicodeError := ⟨rfl, rfl⟩

/-- C2 amended: malformed datagrams are tolerated only in the peer's
listening loop, and only when UTF-8-decodable: a non-UTF-8 registration
crashes the server; a non-UTF-8 introduction crashes the peer; in the
listening state a UTF-8 datagram is processed and the loop continues, while a
non-UTF-8 datagram crashes the peer there too. -/
theorem malformed_datagram_crashes :
    (∀ (peers : List (String × Addr)) (addr : Addr) (rest : List (Bytes × Addr)),
      peers.length < 2 →
      serverLoop peers ((Bytes.invalid, addr) :: rest) = .crashed peers rest) ∧
    (∀ (pid : String) (srv : Addr) (events : List LEvent),
      peerMain pid srv Bytes.invalid events =
        .crashed [Action.send pid srv] .unicodeError) ∧
    (∀ (pid s : String) (src : Addr) (rest : List LEvent),
      listenLoop pid (.msg (.utf8 s) src :: rest) =
        withActs (listenStepActs pid s src) (listenLoop pid rest)) ∧
    (∀ (pid : String) (src : Addr) (rest : List LEvent),
      listenLoop pid (.msg Bytes.invalid src :: rest) = .crashed []) := by
  refine ⟨?_, ?_, ?_, ?_⟩
  · intro peers addr rest h
    show (if 2 ≤ peers.length then
        ServerOutcome.done (mkIntros peers) peers ((Bytes.invalid, addr) :: rest)
      else ServerOutcome.crashed peers rest) = _
    rw [if_neg (by omega)]
  · intro pid srv events
    rfl
  · intro pid s src rest
    rfl
  · intro pid src rest
    rfl

/-- C2 amended witness: the four behaviours at concrete inputs. -/
theorem malformed_datagram_crashes_witness :
    serverLoop [] [(Bytes.invalid, ("h", 1))] = .crashed [] [] ∧
    peerMain "p" ("s", 1) Bytes.invalid [] =
      .crashed [Action.send "p" ("s", 1)] .unicodeError ∧
    listenLoop "p" [.msg (.utf8 "noise") ("h", 2)] =
      withActs (listenStepActs "p" "noise" ("h", 2)) (listenLoop "p" []) ∧
    listenLoop "p" [.msg Bytes.invalid ("h", 2)] = .crashed [] :=
  ⟨malformed_datagram_crashes.1 [] ("h", 1) [] (by decide),
    malformed_datagram_crashes.2.1 "p" ("s", 1) [],
    malformed_datagram_crashes.2.2.1 "p" "noise" ("h", 2) [],
    malformed_datagram_crashes.2.2.2 "p" ("h", 2) []⟩

/-- C3 counterexample: a datagram that is not a well-formed introduction is
not ignored while awaiting the introduction, and the peer does not keep
waiting: the single `recvfrom` is followed by an unpacking that raises
`ValueError`, terminating the peer. -/
theorem intro_malformed_ignored_counterexample :
    decodeIntroRun (Bytes.utf8 "hello") = .error .valueError ∧
    peerMain "p1" ("srv", 9999) (Bytes.utf8 "hello") [] =
      .crashed [Action.send "p1" ("srv", 9999)] .valueError := ⟨rfl, rfl⟩

/-- C3 amended: awaiting the introduction, the peer performs a single
blocking receive; a datagram that does not split into exactly three
whitespace-separated fields with an integer third field raises `ValueError`
and terminates the peer; only a successful decode (exactly three fields,
integer port) yields the partner handle and moves the peer on to punching. -/
theorem intro_decode_single_receive :
    ∀ (pid : String) (srv : Addr) (s : String) (events : List LEvent),
      (introShapeOk s = false →
        peerMain pid srv (.utf8 s) events =
          .crashed [Action.send pid srv] .valueError) ∧
      (∀ (i h p : String) (n : Int), pySplit s = [i, h, p] → pyInt p = some n →
        decodeIntroRun (.utf8 s) = .ok ⟨i, h, n⟩) := by
  intro pid srv s events
  constructor
  · intro hbad
    have hd := decodeIntroRun_err s hbad
    unfold peerMain
    rw [hd]
  · intro i h p n hsp hpi
    exact decodeIntroRun_ok s i h p n hsp hpi

/-- C3 amended witness: `"hello"` crashes the peer with `ValueError`; a
well-formed introduction decodes to the partner handle, including one whose
port is written in Arabic-Indic digits, which `int(...)` accepts as 123. -/
theorem intro_decode_single_receive_witness :
    peerMain "p" ("s", 1) (.utf8 "hello") [] =
      .crashed [Action.send "p" ("s", 1)] .valueError ∧
    decodeIntroRun (.utf8 "q 1.2.3.4 9999") = .ok ⟨"q", "1.2.3.4", 9999⟩ ∧
    decodeIntroRun (.utf8 "q h ١٢٣") = .ok ⟨"q", "h", 123⟩ :=
  ⟨(intro_decode_single_receive "p" ("s", 1) "hello" []).1 (by decide),
    (intro_decode_single_receive "p" ("s", 1) "q 1.2.3.4 9999" []).2
      "q" "1.2.3.4" "9999" 9999 (by decide) (by decide),
    (intro_decode_single_receive "p" ("s", 1) "q h ١٢٣" []).2
      "q" "h" "١٢٣" 123 (by decide) (by decide)⟩

/-- C6 counterexample: the listening peer acks on `msg.startswith('ping')`,
not on the leading whitespace-delimited token being `"ping"`: the datagram
`"pingpong from mallory"` decodes as a punch message of kind `"pingpong"`,
which is not `"ping"`, yet the peer sends an ack. -/
theorem listen_ack_kind_counterexample :
    specDecodePunch "pingpong from mallory" = some ("pingpong", "mallory") ∧
    ("pingpong" : String) ≠ "ping" ∧
    listenLoop "p1" [.msg (.utf8 "pingpong from mallory") ("h", 7), .tmo] =
      .done [Action.printGot "pingpong from mallory" ("h", 7),
        Action.send (encodeAck "p1") ("h", 7)] := ⟨by decide, by decide, by decide⟩

/-- C6 amended: in the listening state, every UTF-8-decodable datagram is
recorded (printed), and an ack (`"ack from <peer_id>"`) is sent back to the
datagram's observed source address if and only if the decoded payload starts
with the four characters `"ping"`; when it does not start with `"ping"`
(e.g. a decoded ack) the peer only records it; a non-UTF-8 datagram instead
crashes the peer. -/
theorem listen_ack_startswith :
    ∀ (pid s : String) (src : Addr),
      Action.printGot s src ∈ listenStepActs pid s src ∧
      (Action.send (encodeAck pid) src ∈ listenStepActs pid s src ↔
        pyStartsWith s "ping" = true) ∧
      (pyStartsWith s "ping" = false →
        listenStepActs pid s src = [Action.printGot s src]) ∧
      (∀ rest, listenLoop pid (.msg (.utf8 s) src :: rest) =
        withActs (listenStepActs pid s src) (listenLoop pid rest)) := by
  intro pid s src
  refine ⟨?_, ?_, ?_, ?_⟩
  · unfold listenStepActs
    exact List.mem_cons_self _ _
  · unfold listenStepActs
    by_cases hp : pyStartsWith s "ping" = true
    · simp [hp]
    · simp [hp]
  · intro hfalse
    unfold listenStepActs
    rw [if_neg (by rw [hfalse]; simp)]
  · intro rest
    rfl

/-- C6 amended witness: a decoded ack is only recorded, no ack is sent. -/
theorem listen_ack_startswith_witness :
    listenStepActs "p" "ack from q" ("h", 1) =
      [Action.printGot "ack from q" ("h", 1)] :=
  (listen_ack_startswith "p" "ack from q" ("h", 1)).2.2.1 (by decide)

/-- C7: the punching burst is exactly three `"ping from <peer_id>"` datagrams
addressed to the partner's (host, port) learned from the introduction, each
followed by a fixed sleep; in a full peer run the burst follows the
registration send and the learned-partner record, and is the same whatever
datagrams arrive afterwards. -/
theorem punch_burst_fixed :
    (∀ (pid : String) (dest : Addr),
      punchBurst pid dest burstCount =
        [.send (encodePing pid) dest, .sleep, .send (encodePing pid) dest, .sleep,
          .send (encodePing pid) dest, .sleep] ∧
      (punchBurst pid dest burstCount).filter
          (fun a => match a with | .send _ _ => true | _ => false) =
        List.replicate 3 (.send (encodePing pid) dest)) ∧
    (∀ (pid : String) (srv : Addr) (s : String) (events : List LEvent)
        (i h p : String) (n : Int), pySplit s = [i, h, p] → pyInt p = some n →
      ∃ tail, peerActs (peerMain pid srv (.utf8 s) events) =
        .send pid srv :: .printLearned i h n ::
          (punchBurst pid (h, n) burstCount ++ tail)) := by
  constructor
  · intro pid dest
    exact ⟨rfl, rfl⟩
  · intro pid srv s events i h p n hsp hpi
    have hd := decodeIntroRun_ok s i h p n hsp hpi
    unfold peerMain
    rw [hd]
    cases hl : listenLoop pid events with
    | done l => exact ⟨l, rfl⟩
    | crashed l => exact ⟨l, rfl⟩
    | blocked l => exact ⟨l, rfl⟩

/-- C7 witness: the punch phase of a concrete peer run. -/
theorem punch_burst_fixed_witness :
    ∃ tail, peerActs (peerMain "p1" ("s", 1) (.utf8 "q 1.2.3.4 80") []) =
      .send "p1" ("s", 1) :: .printLearned "q" "1.2.3.4" 80 ::
        (punchBurst "p1" ("1.2.3.4", 80) burstCount ++ tail) :=
  punch_burst_fixed.2 "p1" ("s", 1) "q 1.2.3.4 80" [] "q" "1.2.3.4" "80" 80
    (by decide) (by decide)

/-- C8 counterexample: the receive timeout is not the only way the listening
loop exits: a non-UTF-8 datagram aborts the loop (uncaught
`UnicodeDecodeError`) on a trace containing no timeout at all. -/
theorem listen_timeout_sole_exit_counterexample :
    listenLoop "p1" [LEvent.msg Bytes.invalid ("h", 1)] = .crashed [] ∧
    LEvent.tmo ∉ [LEvent.msg Bytes.invalid ("h", 1)] := ⟨rfl, by decide⟩

/-- C8 amended: the listening loop terminates normally — `socket.timeout` is
caught and absorbed, the socket closed — exactly when a full timeout window
elapses with no datagram, all earlier events being UTF-8-decodable datagrams;
it is the only NORMAL exit, but a non-UTF-8 datagram aborts the loop
abnormally. -/
theorem peer_listen_done_iff_timeout :
    ∀ (pid : String) (events : List LEvent),
      (∃ acts, listenLoop pid events = .done acts) ↔
      ∃ pre rest, events = pre ++ LEvent.tmo :: rest ∧
        ∀ e ∈ pre, ∃ s src, e = LEvent.msg (Bytes.utf8 s) src := by
  intro pid events
  induction events with
  | nil =>
    constructor
    · rintro ⟨acts, h⟩
      simp [listenLoop] at h
    · rintro ⟨pre, rest, hpre, _⟩
      cases pre with
      | nil => simp at hpre
      | cons e pre' => simp at hpre
  | cons ev rest' ih =>
    cases ev with
    | tmo =>
      constructor
      · intro _
        exact ⟨[], rest', rfl, by intro e he; cases he⟩
      · intro _
        exact ⟨[], rfl⟩
    | msg d src =>
      cases d with
      | invalid =>
        constructor
        · rintro ⟨acts, h⟩
          simp [listenLoop] at h
        · rintro ⟨pre, rest, hpre, hall⟩
          cases pre with
          | nil => simp at hpre
          | cons e pre' =>
            rw [List.cons_append] at hpre
            injection hpre with h1 h2
            obtain ⟨s', src', hes⟩ := hall e (List.mem_cons_self _ _)
            rw [← h1] at hes
            simp at hes
      | utf8 s =>
        constructor
        · rintro ⟨acts, h⟩
          rw [listenLoop_cons_utf8] at h
          have h' : ∃ acts', listenLoop pid rest' = .done acts' := by
            cases hl : listenLoop pid rest' with
            | done l => exact ⟨l, rfl⟩
            | crashed l =>
              rw [hl] at h
              simp [withActs] at h
            | blocked l =>
              rw [hl] at h
              simp [withActs] at h
          obtain ⟨pre, rest, hpre, hall⟩ := ih.mp h'
          refine ⟨.msg (.utf8 s) src :: pre, rest, by rw [List.cons_append, hpre], ?_⟩
          intro e he
          rcases List.mem_cons.mp he with he1 | he2
          · exact ⟨s, src, he1⟩
          · exact hall e he2
        · rintro ⟨pre, rest, hpre, hall⟩
          cases pre with
          | nil => simp at hpre
          | cons e pre' =>
            rw [List.cons_append] at hpre
            injection hpre with h1 h2
            obtain ⟨acts', hacts⟩ :=
              ih.mpr ⟨pre', rest, h2, fun e' he' => hall e' (List.mem_cons_of_mem _ he')⟩
            refine ⟨listenStepActs pid s src ++ acts', ?_⟩
            rw [listenLoop_cons_utf8, hacts]
            rfl

/-- C8 amended witness: one decodable datagram followed by a timeout window
terminates the listening loop normally. -/
theorem peer_listen_done_iff_timeout_witness :
    ∃ acts, listenLoop "p" [LEvent.msg (Bytes.utf8 "x") ("h", 1), LEvent.tmo] =
      .done acts :=
  (peer_listen_done_iff_timeout "p"
      [LEvent.msg (Bytes.utf8 "x") ("h", 1), LEvent.tmo]).mpr
    ⟨[LEvent.msg (Bytes.utf8 "x") ("h", 1)], [], rfl, by
      intro e he
      rw [List.mem_singleton] at he
      exact ⟨"x", ("h", 1), he⟩⟩

end NatPunch
